import Mathlib

/-!
Verification of the KryptChain ledger-replication core against its design
specification.  Each TypeScript module is shallowly embedded as executable
Lean definitions; machine numbers (`number`, `bigint`) become `Int`, strings
stay `String`, JS `Map`s become association lists or functions, and external
collaborators (SHA-256, secp256k1 verification, JSON serialization size,
wall-clock time, the persistent store) are passed in as explicit parameters,
since their implementations live outside this repository.
-/

namespace KryptChain

/-! ## Association-list maps (JS `Map` semantics: insertion order, set
replaces the existing entry in place, delete removes it). -/

def mlookup {α : Type} : List (String × α) → String → Option α
  | [], _ => none
  | e :: rest, k => if e.1 = k then some e.2 else mlookup rest k

def mset {α : Type} : List (String × α) → String → α → List (String × α)
  | [], k, v => [(k, v)]
  | e :: rest, k, v => if e.1 = k then (k, v) :: rest else e :: mset rest k v

def mdelete {α : Type} (l : List (String × α)) (k : String) : List (String × α) :=
  l.filter (fun e => ¬ e.1 = k)

def mkeys {α : Type} (l : List (String × α)) : List String := l.map Prod.fst

/-- JS `Set.add`: append the element unless it is already a member
(insertion order is preserved). -/
def sadd (k : String) (l : List String) : List String :=
  if k ∈ l then l else l ++ [k]

/-! ## State Manager (`src/src/blockchain/StateManager.ts`)

Accounts are keyed by address.  The TypeScript class keeps an LRU account
cache in front of a `DatabaseClient`; neither `./cache` nor `./database` is
part of this repository, and the spec (§4.4, §6) fixes their contract:
`updateAccount` writes through to both store and cache, and reads prefer the
cache, so the observable account state is a single map from address to
account.  The block cache and the block store are kept separate because
`revertBlock` mutates a cache-resident block in place. -/

namespace StateManager

structure Account where
  balance : Int
  nonce : Int
  codeHash : String
  storageRoot : String
deriving DecidableEq

/-- `createHash('sha256').update('').digest('hex')`. -/
def sha256OfEmptyString : String :=
  "e3b0c44298fc1c149afbf4c8996fb92427ae41e4649b934ca495991b7852b855"

/-- Transaction as consumed by the State Manager (`tx.from`, `tx.to`,
`tx.value`, `tx.fee`); `from`/`to` are reserved in Lean so the fields are
`fromAddr`/`toAddr`. -/
structure Transaction where
  fromAddr : String
  toAddr : String
  value : Int
  fee : Int
deriving DecidableEq

structure Block where
  hash : String
  parentHash : String
  transactions : List Transaction
deriving DecidableEq

def AccStore : Type := String → Option Account

def updStore (σ : AccStore) (a : String) (acc : Account) : AccStore :=
  fun x => if x = a then some acc else σ x

/-- `createEmptyAccount` (balance 0, nonce 0, empty code/storage hashes). -/
def createEmptyAccount : Account :=
  ⟨0, 0, sha256OfEmptyString, sha256OfEmptyString⟩

/-- `getAccount`: cached copy, else store copy, else a fresh empty account
(the empty account is not persisted). -/
def getAccountS (σ : AccStore) (a : String) : Account :=
  (σ a).getD createEmptyAccount

/-- `updateAccount`: validates the account invariants then writes through.
On a validation failure nothing is written. -/
def updateAccount (σ : AccStore) (a : String) (acc : Account) :
    Option String × AccStore :=
  if acc.balance < 0 ∨ acc.nonce < 0 then (some "Invalid account state", σ)
  else (none, updStore σ a acc)

/-- In-place mutation of an account object: if the address is resident in
the cache/store the mutation is immediately visible through it (the
TypeScript code mutates the very object the cache holds); a freshly created
empty account is a local object, so mutating it does not touch the store. -/
def mutateVisible (σ : AccStore) (a : String) (acc : Account) : AccStore :=
  if (σ a).isSome then updStore σ a acc else σ

/-- `applyTransaction`: loads sender and recipient, rejects when
`sender.balance < tx.value + tx.fee`, then mutates the two account objects in
place (debit + nonce increment, credit) and persists them with two
`updateAccount` calls.  When `from = to` and the account exists, both local
names alias one cached object, so the recipient credit lands on the already
debited object; for an absent account `getAccount` makes two distinct empty
objects and the second write overwrites the first. -/
def applyTransaction (σ : AccStore) (t : Transaction) : Option String × AccStore :=
  let s := getAccountS σ t.fromAddr
  let r := getAccountS σ t.toAddr
  if s.balance < t.value + t.fee then
    (some "Insufficient balance", σ)
  else
    let shared := t.fromAddr = t.toAddr ∧ (σ t.fromAddr).isSome = true
    let sF : Account :=
      if shared then
        { s with balance := s.balance - (t.value + t.fee) + t.value,
                 nonce := s.nonce + 1 }
      else
        { s with balance := s.balance - (t.value + t.fee), nonce := s.nonce + 1 }
    let rF : Account := if shared then sF else { r with balance := r.balance + t.value }
    let σ0 := mutateVisible σ t.fromAddr sF
    let σ1 := mutateVisible σ0 t.toAddr rF
    match updateAccount σ1 t.fromAddr sF with
    | (some e, σ2) => (some e, σ2)
    | (none, σ2) => updateAccount σ2 t.toAddr rF

/-- `revertTransaction`: the exact mirror image of `applyTransaction`
(credit sender, decrement nonce, debit recipient), with the same in-place
mutation and aliasing behaviour, and no balance precheck. -/
def revertTransaction (σ : AccStore) (t : Transaction) : Option String × AccStore :=
  let s := getAccountS σ t.fromAddr
  let r := getAccountS σ t.toAddr
  let shared := t.fromAddr = t.toAddr ∧ (σ t.fromAddr).isSome = true
  let sG : Account :=
    if shared then
      { s with balance := s.balance + (t.value + t.fee) - t.value,
               nonce := s.nonce - 1 }
    else
      { s with balance := s.balance + (t.value + t.fee), nonce := s.nonce - 1 }
  let rG : Account := if shared then sG else { r with balance := r.balance - t.value }
  let σ0 := mutateVisible σ t.fromAddr sG
  let σ1 := mutateVisible σ0 t.toAddr rG
  match updateAccount σ1 t.fromAddr sG with
  | (some e, σ2) => (some e, σ2)
  | (none, σ2) => updateAccount σ2 t.toAddr rG

/-- The `for (const tx of block.transactions) await this.applyTransaction(tx)`
loop: stops at the first error; mutations made so far stay in the store. -/
def applyTxs : List Transaction → AccStore → Option String × AccStore
  | [], σ => (none, σ)
  | t :: ts, σ =>
    match applyTransaction σ t with
    | (some e, σ1) => (some e, σ1)
    | (none, σ1) => applyTxs ts σ1

def revertTxs : List Transaction → AccStore → Option String × AccStore
  | [], σ => (none, σ)
  | t :: ts, σ =>
    match revertTransaction σ t with
    | (some e, σ1) => (some e, σ1)
    | (none, σ1) => revertTxs ts σ1

structure SMState where
  accounts : AccStore
  blockCache : String → Option Block
  dbBlocks : String → Option Block
  currentBlock : Option Block

def updBlocks (m : String → Option Block) (h : String) (b : Block) :
    String → Option Block :=
  fun x => if x = h then some b else m x

/-- `commitBlock`: applies every transaction in array order; only after all
succeed does it advance `currentBlock`, cache the block and save it.  An
error mid-loop aborts the loop but the account mutations already persisted
remain visible. -/
def commitBlock (st : SMState) (b : Block) : Option String × SMState :=
  match applyTxs b.transactions st.accounts with
  | (some e, σ) => (some e, { st with accounts := σ })
  | (none, σ) =>
    (none, { st with accounts := σ,
                     currentBlock := some b,
                     blockCache := updBlocks st.blockCache b.hash b,
                     dbBlocks := updBlocks st.dbBlocks b.hash b })

/-- `getBlock`: block cache first, then the persistent store (no cache fill). -/
def getBlock (st : SMState) (h : String) : Option Block :=
  match st.blockCache h with
  | some b => some b
  | none => st.dbBlocks h

/-- `revertBlock`: loads the block, reverses its transactions with the
in-place `Array.prototype.reverse` (a cache-resident block object keeps the
reversed array), reverts them in that order, then moves `currentBlock` to the
parent.  A missing block or a failed revert surfaces as a state error. -/
def revertBlock (st : SMState) (h : String) : Option String × SMState :=
  match getBlock st h with
  | none => (some "Block revert failed", st)
  | some b =>
    let reversed := b.transactions.reverse
    let st1 :=
      if (st.blockCache h).isSome then
        { st with blockCache := updBlocks st.blockCache h { b with transactions := reversed } }
      else st
    match revertTxs reversed st1.accounts with
    | (some e, σ) => (some e, { st1 with accounts := σ })
    | (none, σ) =>
      let st2 := { st1 with accounts := σ }
      (none, { st2 with currentBlock := getBlock st2 b.parentHash })

/-- Every account satisfies the data-model invariant of spec §3:
balance ≥ 0 and nonce ≥ 0. -/
def ValidStore (σ : AccStore) : Prop :=
  ∀ a, 0 ≤ (getAccountS σ a).balance ∧ 0 ≤ (getAccountS σ a).nonce

/-- Two stores hold the same accounts observably (`getAccount` returns the
same for every address; a missing record and a stored empty account are
indistinguishable). -/
def StoreEq (σ τ : AccStore) : Prop :=
  ∀ a, getAccountS σ a = getAccountS τ a

/-! Concrete inputs used by the claim witnesses and counterexamples. -/

/-- Store holding a single account `A` with balance 10, nonce 0. -/
def storeC1 : AccStore :=
  fun a => if a = "A" then some ⟨10, 0, sha256OfEmptyString, sha256OfEmptyString⟩ else none

def stC1 : SMState := ⟨storeC1, fun _ => none, fun _ => none, none⟩

/-- Block whose second transaction overdraws the sender. -/
def blockC1 : Block :=
  ⟨"hB", "h0", [⟨"A", "B", 5, 1⟩, ⟨"A", "C", 100, 1⟩]⟩

/-- Empty account store. -/
def storeEmpty : AccStore := fun _ => none

def stC2cex : SMState := ⟨storeEmpty, fun _ => none, fun _ => none, none⟩

/-- A zero-value self-transfer from an address with no stored account. -/
def blockC2cex : Block := ⟨"hS", "h0", [⟨"X", "X", 0, 0⟩]⟩

/-- Store holding accounts `A` (100) and `B` (50). -/
def storeC2 : AccStore :=
  fun a =>
    if a = "A" then some ⟨100, 0, sha256OfEmptyString, sha256OfEmptyString⟩
    else if a = "B" then some ⟨50, 3, sha256OfEmptyString, sha256OfEmptyString⟩
    else none

def stC2 : SMState := ⟨storeC2, fun _ => none, fun _ => none, none⟩

def blockC2 : Block := ⟨"hB", "h0", [⟨"A", "B", 10, 5⟩, ⟨"B", "C", 20, 5⟩]⟩

def blockC9 : Block := ⟨"hR", "h0", [⟨"A", "B", 1, 1⟩, ⟨"B", "C", 2, 1⟩, ⟨"C", "A", 3, 1⟩]⟩

def stC9 : SMState :=
  ⟨storeC2, fun x => if x = "hR" then some blockC9 else none, fun _ => none, none⟩

end StateManager

/-! ## Consensus Engine (`src/src/blockchain/ConsensusEngine.ts`)

Fixed validator set, quorum threshold `requiredValidations`, a map of pending
blocks keyed by hash and a map from block hash to the set of validator keys
that have signed it.  `SHA256`/`JSON.stringify` (block hashing), the
`crypto-utils` block validation and the signature verification are external
and appear as function parameters. -/

namespace ConsensusEngine

structure Block where
  prevHash : String
  timestamp : Int
  txIds : List String
  height : Int
deriving DecidableEq

structure CEState where
  validators : List String
  requiredValidations : Nat
  pendingBlocks : List (String × Block)
  validations : List (String × List String)
deriving DecidableEq

/-- `proposeBlock`: rejects a hash already pending or a block failing the
external validation, otherwise registers the block with an empty attestation
set. -/
def proposeBlock (st : CEState) (b : Block) (hashFn : Block → String)
    (validate : Block → Bool) : Bool × CEState :=
  let blockHash := hashFn b
  if (mlookup st.pendingBlocks blockHash).isSome then (false, st)
  else if ¬ validate b then (false, st)
  else
    (true, { st with pendingBlocks := mset st.pendingBlocks blockHash b,
                     validations := mset st.validations blockHash [] })

/-- `validateBlock(blockHash, validatorKey, signature)` — the attestation
entry point: rejects an unknown validator, an unknown block or a bad
signature, otherwise adds the validator key to the block's attestation set
and reports whether the quorum threshold is now met. -/
def ceValidateBlock (st : CEState) (blockHash validatorKey signature : String)
    (verify : String → String → String → Bool) : Bool × CEState :=
  if validatorKey ∈ st.validators then
    match mlookup st.pendingBlocks blockHash with
    | some _ =>
      if verify blockHash signature validatorKey then
        match mlookup st.validations blockHash with
        | some vs =>
          let vs1 := sadd validatorKey vs
          (st.requiredValidations ≤ vs1.length,
           { st with validations := mset st.validations blockHash vs1 })
        | none => (false, st)
      else (false, st)
    | none => (false, st)
  else (false, st)

/-- The body of `getFinalizedBlocks`: walk the attestation map entries; an
entry meeting the quorum whose block is still pending is collected and both
map entries are deleted (the JS iteration only ever deletes the entry it is
currently visiting, so iterating the snapshot list is equivalent). -/
def finGo : List (String × List String) → CEState → List Block × CEState
  | [], st => ([], st)
  | (h, vs) :: rest, st =>
    if st.requiredValidations ≤ vs.length then
      match mlookup st.pendingBlocks h with
      | some b =>
        let st1 := { st with pendingBlocks := mdelete st.pendingBlocks h,
                             validations := mdelete st.validations h }
        let res := finGo rest st1
        (b :: res.1, res.2)
      | none => finGo rest st
    else finGo rest st

def getFinalizedBlocks (st : CEState) : List Block × CEState :=
  finGo st.validations st

def clearPendingBlocks (st : CEState) : CEState :=
  { st with pendingBlocks := [], validations := [] }

/-- States reachable from the constructor (which enforces
`requiredValidations ≤ validators.length`) by any sequence of operations,
with arbitrary external hash/validation/signature functions. -/
inductive Reachable : CEState → Prop
  | init (validators : List String) (q : Nat) (hq : q ≤ validators.length) :
      Reachable ⟨validators, q, [], []⟩
  | propose (st : CEState) (b : Block) (hashFn : Block → String)
      (validate : Block → Bool) : Reachable st →
      Reachable (proposeBlock st b hashFn validate).2
  | attest (st : CEState) (h k s : String)
      (verify : String → String → String → Bool) : Reachable st →
      Reachable (ceValidateBlock st h k s verify).2
  | finalize (st : CEState) : Reachable st → Reachable (getFinalizedBlocks st).2
  | clear (st : CEState) : Reachable st → Reachable (clearPendingBlocks st)

/-- Internal well-formedness of a consensus state: duplicate-free keys, the
pending map and the attestation map share their key set, attestation sets are
duplicate-free and drawn from the validator set. -/
def Inv (st : CEState) : Prop :=
  (mkeys st.pendingBlocks).Nodup ∧
  (mkeys st.validations).Nodup ∧
  (∀ h, (mlookup st.pendingBlocks h).isSome = true ↔
        (mlookup st.validations h).isSome = true) ∧
  (∀ h ks, mlookup st.validations h = some ks →
      ks.Nodup ∧ ∀ k ∈ ks, k ∈ st.validators)

/-! Concrete inputs used by the claim witness. -/

def ceBlockEx : Block := ⟨"genesis", 0, [], 1⟩

def ceHashEx : Block → String := fun _ => "h1"

def ceStateEx : CEState :=
  (ceValidateBlock
    (proposeBlock ⟨["A", "B"], 1, [], []⟩ ceBlockEx ceHashEx (fun _ => true)).2
    "h1" "A" "sig" (fun _ _ _ => true)).2

end ConsensusEngine

/-! ## Transaction Pool, event-emitter variant
(`src/src/blockchain/TransactionPool.ts`, first class, lines 12–127)

Entries are keyed by `getTransactionHash`, the SHA-256 of the JSON object
`(fromAddress, toAddress, amount, timestamp)`.  The digest is modelled by the
four-tuple itself: it is a deterministic function of exactly those four
fields, and the spec assumes the hash collision-resistant.  The object spread
`{...transaction, timestamp: Date.now()}` overwrites the transaction's own
`timestamp` field with the admission time, so a pool entry stores the
transaction together with its admission timestamp.  `blockchain.verifyTransaction`,
`blockchain.getAddressBalance` and the serialized byte size are external
parameters. -/

namespace TransactionPoolA

structure Transaction where
  id : String
  fromAddress : String
  toAddress : String
  amount : Int
  fee : Int
  timestamp : Int
  signature : String
deriving DecidableEq

abbrev TxKey : Type := String × String × Int × Int

def getTransactionHash (tx : Transaction) : TxKey :=
  (tx.fromAddress, tx.toAddress, tx.amount, tx.timestamp)

structure PoolEntry where
  tx : Transaction
  timestamp : Int
deriving DecidableEq

def klookup {α : Type} : List (TxKey × α) → TxKey → Option α
  | [], _ => none
  | e :: rest, k => if e.1 = k then some e.2 else klookup rest k

def kset {α : Type} : List (TxKey × α) → TxKey → α → List (TxKey × α)
  | [], k, v => [(k, v)]
  | e :: rest, k, v => if e.1 = k then (k, v) :: rest else e :: kset rest k v

structure PoolState where
  transactions : List (TxKey × PoolEntry)
  maxSize : Nat
deriving DecidableEq

def MAX_AGE_MS : Int := 3600000

def MAX_SIZE_BYTES : Nat := 5000000

/-- `validateTransaction`: format, external signature verification, balance
lookup (`senderBalance < tx.amount` — the fee is not considered here), and
serialized-size budget; the first failure is reported. -/
def poolValidate (tx : Transaction) (verifyTx : Transaction → Bool)
    (balanceOf : String → Int) (sizeOf : Transaction → Nat) : Option String :=
  if tx.signature = "" ∨ tx.fromAddress = "" ∨ tx.toAddress = "" ∨ tx.amount ≤ 0 then
    some "Invalid transaction format"
  else if ¬ verifyTx tx then some "Transaction signature verification failed"
  else if balanceOf tx.fromAddress < tx.amount then some "Insufficient balance"
  else if MAX_SIZE_BYTES < sizeOf tx then some "Transaction size exceeds limit"
  else none

/-- `removeOldestTransactions`: delete every entry older than `MAX_AGE_MS`. -/
def removeOldestTransactions (st : PoolState) (now : Int) : PoolState :=
  { st with transactions :=
      st.transactions.filter (fun e => ¬ MAX_AGE_MS < now - e.2.timestamp) }

/-- `addTransaction`: duplicate-hash check, validation, then — only when the
pool has reached `maxSize` — the eviction sweep, and finally the insertion,
which happens whether or not the sweep freed space.  Any rejection happens
before the pool is touched. -/
def addTransaction (st : PoolState) (tx : Transaction) (now : Int)
    (verifyTx : Transaction → Bool) (balanceOf : String → Int)
    (sizeOf : Transaction → Nat) : Bool × PoolState :=
  let txHash := getTransactionHash tx
  if (klookup st.transactions txHash).isSome then (false, st)
  else
    match poolValidate tx verifyTx balanceOf sizeOf with
    | some _ => (false, st)
    | none =>
      let st1 := if st.maxSize ≤ st.transactions.length then
          removeOldestTransactions st now
        else st
      (true, { st1 with transactions := kset st1.transactions txHash ⟨tx, now⟩ })

/-! Concrete inputs used by the claim witnesses and counterexamples. -/

def txA1 : Transaction := ⟨"t1", "A", "B", 60, 5, 1000, "sigA1"⟩

def txA2 : Transaction := ⟨"t2", "A", "C", 40, 5, 2000, "sigA2"⟩

/-- `txA1` with a different id, fee and signature but the same
`(fromAddress, toAddress, amount, timestamp)`. -/
def txA1dup : Transaction := ⟨"t9", "A", "B", 60, 9, 1000, "sigOther"⟩

/-- A pool of capacity 1 already holding `txA1`, admitted at time 0. -/
def poolFull : PoolState := ⟨[(getTransactionHash txA1, ⟨txA1, 0⟩)], 1⟩

def verifyAll : Transaction → Bool := fun _ => true

def balance1000 : String → Int := fun _ => 1000

def size10 : Transaction → Nat := fun _ => 10

end TransactionPoolA

/-! ## Transaction Pool, balance-aware variant
(`src/src/blockchain/TransactionPool.ts`, second class, lines 132–245)

Entries are keyed by `CryptoHash.hash(transaction.serialize())`, an external
digest passed in as `hashOf`.  `getSenderBalance` is stubbed in the source
(`throw new Error('Not implemented')`); the spec (§4.5, §9) directs the
balance to come from the State Manager's `getAccount`, so it is modelled as
the parameter `balanceOf`. -/

namespace TransactionPoolB

structure Transaction where
  fromAddr : String
  amount : Int
  fee : Int
  blockNumber : Int
deriving DecidableEq

structure PoolState where
  transactions : List (String × Transaction)
deriving DecidableEq

def maxPoolSize : Nat := 1000

/-- `getPendingAmount`: the sum of the amounts (fees are not included) of
every pool entry sent by `address`. -/
def getPendingAmount (st : PoolState) (address : String) : Int :=
  (st.transactions.filter (fun e => e.2.fromAddr = address)).foldl
    (fun total e => total + e.2.amount) 0

/-- `validateTransactionBalance`:
`senderBalance >= pendingAmount + tx.amount` — the fee of the new
transaction and the fees of the pending ones are not counted. -/
def validateTransactionBalance (st : PoolState) (tx : Transaction)
    (balanceOf : String → Int) : Bool :=
  getPendingAmount st tx.fromAddr + tx.amount ≤ balanceOf tx.fromAddr

/-- `addTransaction`: signature validity, pool capacity, duplicate hash and
the balance check, in that order; each failure throws before the map is
touched. -/
def addTransaction (st : PoolState) (tx : Transaction)
    (isValid : Transaction → Bool) (hashOf : Transaction → String)
    (balanceOf : String → Int) : Except String PoolState :=
  if ¬ isValid tx then .error "Invalid transaction signature"
  else if maxPoolSize ≤ st.transactions.length then .error "Transaction pool is full"
  else
    let txHash := hashOf tx
    if (mlookup st.transactions txHash).isSome then
      .error "Transaction already exists in pool"
    else if ¬ validateTransactionBalance st tx balanceOf then
      .error "Insufficient balance for transaction"
    else .ok { st with transactions := mset st.transactions txHash tx }

/-! Concrete inputs for the spec's §8 admission scenario. -/

def txB1 : Transaction := ⟨"A", 60, 5, 0⟩

def txB2 : Transaction := ⟨"A", 40, 5, 0⟩

def poolB : PoolState := ⟨[("h1", txB1)]⟩

def hashB : Transaction → String := fun tx => if tx = txB1 then "h1" else "h2"

def balance100 : String → Int := fun _ => 100

end TransactionPoolB

/-! ## Merkle aggregation (`CryptographicHash.merkleHash`, two variants in
`src/src/blockchain/TransactionPool.ts`: lines 344–368 and lines 472–499)

Both hash the leaves and then repeatedly combine one level into the next,
two entries at a time.  They differ on an odd trailing element: the first
variant pushes `hash(last + last)`, the second pushes `last` unchanged.  The
underlying digest is the parameter `h`; string concatenation is the JS `+`. -/

namespace CryptographicHash

/-- One combining round of the first `merkleHash` variant (lines 352–361):
an unpaired trailing element is hashed against itself. -/
def pairUpA (h : String → String) : List String → List String
  | [] => []
  | [x] => [h (x ++ x)]
  | x :: y :: rest => h (x ++ y) :: pairUpA h rest

/-- One combining round of the second `merkleHash` variant (lines 481–492):
an unpaired trailing element is promoted unchanged. -/
def pairUpB (h : String → String) : List String → List String
  | [] => []
  | [x] => [x]
  | x :: y :: rest => h (x ++ y) :: pairUpB h rest

/-- The `while (level.length > 1)` loop, run with explicit fuel; each round
at least halves a level of length ≥ 2, so fuel equal to the initial length
is always enough for the loop to reach a single root. -/
def merkleLoopA (h : String → String) : Nat → List String → List String
  | 0, level => level
  | fuel + 1, level =>
    if 2 ≤ level.length then merkleLoopA h fuel (pairUpA h level) else level

def merkleLoopB (h : String → String) : Nat → List String → List String
  | 0, level => level
  | fuel + 1, level =>
    if 2 ≤ level.length then merkleLoopB h fuel (pairUpB h level) else level

/-- `merkleHash`, first variant: an empty input is an error, otherwise hash
the items and fold the levels. -/
def merkleHashA (h : String → String) (items : List String) : Option String :=
  match items with
  | [] => none
  | _ => (merkleLoopA h items.length (items.map h)).head?

/-- `merkleHash`, second variant. -/
def merkleHashB (h : String → String) (items : List String) : Option String :=
  match items with
  | [] => none
  | _ => (merkleLoopB h items.length (items.map h)).head?

/-- Concrete injective digest used by witnesses: prefix a marker. -/
def hashTag : String → String := fun s => "#" ++ s

end CryptographicHash

/-! ## Block Validator (`src/src/blockchain/BlockValidator.ts`)

`validateBlock` runs structure, size, timestamp, hash, previous-hash and
transaction checks in that order and stops at the first failure.  The
SHA-256 of the JSON of `(index, previousHash, timestamp, transactions,
nonce)` is the parameter `hashFn`, the serialized size is `sizeOf`, and
`Date.now()` is `now`.  The error strings of the source are represented by
the constructors of `VError` (e.g. `.invalidBlockHash` is
`'Invalid block hash'`). -/

namespace BlockValidator

structure Tx where
  id : String
  signature : String
  senderPublicKey : String
deriving DecidableEq

structure Block where
  index : Int
  timestamp : Int
  hash : String
  previousHash : String
  transactions : List Tx
  nonce : Int
deriving DecidableEq

structure BVConfig where
  difficulty : Nat
  maxBlockSize : Nat
deriving DecidableEq

inductive VError where
  | invalidStructure
  | exceedsMaxSize
  | invalidTimestamp
  | invalidBlockHash
  | invalidPreviousHash
  | invalidTransaction (id : String)
deriving DecidableEq

inductive ValidationResult where
  | ok
  | err (e : VError)
deriving DecidableEq

/-- `validateBlockStructure` checks the runtime types of the fields; a
well-typed `Block` always satisfies it. -/
def validateBlockStructure (_ : Block) : Bool := true

def validateBlockSize (cfg : BVConfig) (sizeOf : Block → Nat) (b : Block) : Bool :=
  sizeOf b ≤ cfg.maxBlockSize

/-- `validateTimestamp`: at most 2 minutes ahead of now, and strictly after
the previous block when one is given. -/
def validateTimestamp (now : Int) (b : Block) (prev : Option Block) : Bool :=
  if now + 2 * 60 * 1000 < b.timestamp then false
  else
    match prev with
    | some p => if b.timestamp ≤ p.timestamp then false else true
    | none => true

/-- The JSON fields fed to `calculateBlockHash`. -/
def blockHashData (b : Block) : Int × String × Int × List Tx × Int :=
  (b.index, b.previousHash, b.timestamp, b.transactions, b.nonce)

def zeros (n : Nat) : String := String.mk (List.replicate n '0')

/-- `validateBlockHash`: the stored hash must equal the recomputed hash and
start with `difficulty` zeros. -/
def validateBlockHash (cfg : BVConfig)
    (hashFn : Int × String × Int × List Tx × Int → String) (b : Block) : Bool :=
  b.hash = hashFn (blockHashData b) ∧ (zeros cfg.difficulty).isPrefixOf b.hash

def validatePreviousHashOk (b : Block) (prev : Option Block) : Bool :=
  match prev with
  | some p => b.previousHash = p.hash
  | none => true

/-- `validateTransactions`: the first transaction with a missing signature
or sender public key fails the block, reporting that transaction's id. -/
def validateTransactions : List Tx → ValidationResult
  | [] => .ok
  | t :: ts =>
    if t.signature = "" ∨ t.senderPublicKey = "" then .err (.invalidTransaction t.id)
    else validateTransactions ts

def validateBlock (cfg : BVConfig)
    (hashFn : Int × String × Int × List Tx × Int → String) (sizeOf : Block → Nat)
    (now : Int) (b : Block) (prev : Option Block) : ValidationResult :=
  if ¬ validateBlockStructure b then .err .invalidStructure
  else if ¬ validateBlockSize cfg sizeOf b then .err .exceedsMaxSize
  else if ¬ validateTimestamp now b prev then .err .invalidTimestamp
  else if ¬ validateBlockHash cfg hashFn b then .err .invalidBlockHash
  else if ¬ validatePreviousHashOk b prev then .err .invalidPreviousHash
  else validateTransactions b.transactions

/-! Concrete inputs used by the claim witness and counterexample. -/

def cfgEx : BVConfig := ⟨0, 1000000⟩

def hashConst : Int × String × Int × List Tx × Int → String := fun _ => "H"

def sizeOf100 : Block → Nat := fun _ => 100

/-- Wrong stored hash and a timestamp far in the future. -/
def blockBadTs : Block := ⟨1, 1000000000, "X", "H0", [], 0⟩

/-- Wrong stored hash, everything before the hash check fine. -/
def blockBadHash : Block := ⟨1, 50, "X", "H0", [⟨"t1", "", ""⟩], 0⟩

end BlockValidator

/-! ## Transaction Validator (`src/src/blockchain/TransactionValidator.ts`)

`validateTransaction` runs `validateBasics` (fields, size, timestamp skew,
fee floor), then `validateSignature`, then `validateAmount`, then the
optional in-block checks, throwing a `ValidationError` at the first failure.
The secp256k1 verification over the canonical-field digest is the parameter
`ecVerify`; the digest itself is `hashFn`; the serialized size is `sizeOf`
and `Date.now()` is `now`.  The sender balance is a field of the transaction
(`tx.senderBalance`) exactly as in the source. -/

namespace TransactionValidator

structure Transaction where
  id : String
  fromAddr : String
  toAddr : String
  signature : String
  amount : Int
  fee : Int
  senderBalance : Int
  timestamp : Int
  nonce : Int
deriving DecidableEq

structure TVBlock where
  timestamp : Int
  transactions : List Transaction
deriving DecidableEq

inductive TVError where
  | missingFields
  | sizeExceedsMax
  | timestampTooFar
  | feeBelowMinimum
  | invalidSignature
  | amountNotPositive
  | insufficientSenderBalance
  | insufficientBalanceForFee
  | timestampAfterBlock
  | duplicateInBlock
deriving DecidableEq

def maxTxSize : Nat := 1000000

def minFee : Int := 1000

def validateBasics (sizeOf : Transaction → Nat) (now : Int) (tx : Transaction) :
    Option TVError :=
  if tx.id = "" ∨ tx.fromAddr = "" ∨ tx.toAddr = "" ∨ tx.signature = "" then
    some .missingFields
  else if maxTxSize < sizeOf tx then some .sizeExceedsMax
  else if now + 300000 < tx.timestamp then some .timestampTooFar
  else if tx.fee < minFee then some .feeBelowMinimum
  else none

/-- The canonical fields of `calculateTxHash`. -/
def txHashData (tx : Transaction) : String × String × Int × Int × Int × Int :=
  (tx.fromAddr, tx.toAddr, tx.amount, tx.fee, tx.timestamp, tx.nonce)

def validateSignature (hashFn : String × String × Int × Int × Int × Int → String)
    (ecVerify : String → String → String → Bool) (tx : Transaction) :
    Option TVError :=
  if ecVerify tx.fromAddr (hashFn (txHashData tx)) tx.signature then none
  else some .invalidSignature

def validateAmount (tx : Transaction) : Option TVError :=
  if tx.amount ≤ 0 then some .amountNotPositive
  else if tx.senderBalance < tx.amount then some .insufficientSenderBalance
  else if tx.senderBalance < tx.amount + tx.fee then some .insufficientBalanceForFee
  else none

def validateInBlock (tx : Transaction) (b : TVBlock) : Option TVError :=
  if b.timestamp < tx.timestamp then some .timestampAfterBlock
  else if 1 < (b.transactions.filter (fun t => t.id = tx.id)).length then
    some .duplicateInBlock
  else none

def validateTransaction (sizeOf : Transaction → Nat) (now : Int)
    (hashFn : String × String × Int × Int × Int × Int → String)
    (ecVerify : String → String → String → Bool) (tx : Transaction)
    (blk : Option TVBlock) : Except TVError Unit :=
  match validateBasics sizeOf now tx with
  | some e => .error e
  | none =>
    match validateSignature hashFn ecVerify tx with
    | some e => .error e
    | none =>
      match validateAmount tx with
      | some e => .error e
      | none =>
        match blk with
        | none => .ok ()
        | some b =>
          match validateInBlock tx b with
          | some e => .error e
          | none => .ok ()

/-! Concrete inputs used by the claim witness and counterexample. -/

/-- A transaction whose amount check would fail (amount 0) and whose
signature does not verify. -/
def txBadBoth : Transaction := ⟨"t1", "A", "B", "sig", 0, 1000, 50, 0, 0⟩

def hashTx : String × String × Int × Int × Int × Int → String := fun _ => "D"

def verifyNone : String → String → String → Bool := fun _ _ _ => false

def sizeTx10 : Transaction → Nat := fun _ => 10

end TransactionValidator

/-! ## Theorems -/

/-! Association-list map lemmas. -/

theorem mlookup_mset {α : Type} (l : List (String × α)) (k : String) (v : α)
    (x : String) :
    mlookup (mset l k v) x = if x = k then some v else mlookup l x := by
  induction l with
  | nil =>
    by_cases h : x = k
    · subst h
      simp [mset, mlookup]
    · have h2 : ¬ k = x := fun hc => h hc.symm
      simp [mset, mlookup, h, h2]
  | cons e rest ih =>
    by_cases h1 : e.1 = k
    · by_cases h : x = k
      · subst h
        simp [mset, mlookup, h1]
      · have h2 : ¬ k = x := fun hc => h hc.symm
        have h3 : ¬ e.1 = x := by rw [h1]; exact h2
        simp [mset, mlookup, h1, h, h2, h3]
    · by_cases h4 : e.1 = x
      · have h : ¬ x = k := fun hc => h1 (h4.trans hc)
        simp [mset, mlookup, h1, h4, h]
      · simp [mset, mlookup, h1, h4, ih]

theorem mlookup_mdelete {α : Type} (l : List (String × α)) (k x : String) :
    mlookup (mdelete l k) x = if x = k then none else mlookup l x := by
  induction l with
  | nil =>
    by_cases h : x = k <;> simp [mdelete, mlookup, h]
  | cons e rest ih =>
    by_cases h1 : e.1 = k
    · rw [show mdelete (e :: rest) k = mdelete rest k from by
        simp [mdelete, List.filter_cons, h1]]
      rw [ih]
      by_cases h : x = k
      · simp [h]
      · have h3 : ¬ e.1 = x := by rw [h1]; exact fun hc => h hc.symm
        simp [mlookup, h, h3]
    · rw [show mdelete (e :: rest) k = e :: mdelete rest k from by
        simp [mdelete, List.filter_cons, h1]]
      by_cases h4 : e.1 = x
      · have hxk : ¬ x = k := fun hc => h1 (h4.trans hc)
        simp [mlookup, h4, hxk]
      · simp [mlookup, h4, ih]

theorem mlookup_mem {α : Type} {l : List (String × α)} {k : String} {v : α}
    (h : mlookup l k = some v) : (k, v) ∈ l := by
  induction l with
  | nil => simp [mlookup] at h
  | cons e rest ih =>
    by_cases h1 : e.1 = k
    · simp only [mlookup, if_pos h1, Option.some.injEq] at h
      rcases e with ⟨a, b⟩
      dsimp at h1 h
      subst h1
      subst h
      exact List.mem_cons_self _ _
    · simp only [mlookup, if_neg h1] at h
      exact List.mem_cons_of_mem e (ih h)

theorem mlookup_none_not_mem_keys {α : Type} {l : List (String × α)}
    {k : String} (h : mlookup l k = none) : k ∉ mkeys l := by
  induction l with
  | nil => simp [mkeys]
  | cons e rest ih =>
    by_cases h1 : e.1 = k
    · simp [mlookup, h1] at h
    · simp only [mlookup, if_neg h1] at h
      simp only [mkeys, List.map_cons, List.mem_cons, not_or]
      have ih2 := ih h
      simp only [mkeys] at ih2
      exact ⟨fun he => h1 he.symm, ih2⟩

theorem mem_mlookup {α : Type} {l : List (String × α)} {k : String} {v : α}
    (hnd : (mkeys l).Nodup) (h : (k, v) ∈ l) : mlookup l k = some v := by
  induction l with
  | nil => simp at h
  | cons e rest ih =>
    have hnd2 : (e.1 :: mkeys rest).Nodup := by simpa [mkeys] using hnd
    rcases List.mem_cons.mp h with he | hrest
    · rw [← he]
      simp [mlookup]
    · have hk : k ∈ mkeys rest := by
        simp only [mkeys, List.mem_map]
        exact ⟨(k, v), hrest, rfl⟩
      have h1 : ¬ e.1 = k := by
        intro hcon
        rw [hcon] at hnd2
        exact (List.nodup_cons.mp hnd2).1 hk
      simp only [mlookup, if_neg h1]
      exact ih (List.nodup_cons.mp hnd2).2 hrest

theorem mkeys_mset {α : Type} (l : List (String × α)) (k : String) (v : α) :
    mkeys (mset l k v) =
      if (mlookup l k).isSome = true then mkeys l else mkeys l ++ [k] := by
  induction l with
  | nil => simp [mset, mkeys, mlookup]
  | cons e rest ih =>
    by_cases h1 : e.1 = k
    · simp [mset, mkeys, mlookup, h1]
    · rw [show mset (e :: rest) k v = e :: mset rest k v from by simp [mset, h1]]
      rw [show mkeys (e :: mset rest k v) = e.1 :: mkeys (mset rest k v) from rfl]
      rw [ih]
      rw [show mlookup (e :: rest) k = mlookup rest k from by simp [mlookup, h1]]
      split_ifs <;> simp [mkeys]

theorem mkeys_mdelete {α : Type} (l : List (String × α)) (k : String) :
    mkeys (mdelete l k) = (mkeys l).filter (fun s => ¬ s = k) := by
  induction l with
  | nil => rfl
  | cons e rest ih =>
    by_cases h1 : e.1 = k
    · rw [show mdelete (e :: rest) k = mdelete rest k from by
        simp [mdelete, List.filter_cons, h1]]
      rw [ih]
      simp [mkeys, List.filter_cons, h1]
    · rw [show mdelete (e :: rest) k = e :: mdelete rest k from by
        simp [mdelete, List.filter_cons, h1]]
      rw [show mkeys (e :: mdelete rest k) = e.1 :: mkeys (mdelete rest k) from rfl]
      rw [ih]
      simp [mkeys, List.filter_cons, h1]

theorem mkeys_mdelete_nodup {α : Type} {l : List (String × α)} (k : String)
    (h : (mkeys l).Nodup) : (mkeys (mdelete l k)).Nodup := by
  rw [mkeys_mdelete]
  exact h.filter _

theorem sadd_mem {k k2 : String} {vs : List String} (h : k2 ∈ sadd k vs) :
    k2 = k ∨ k2 ∈ vs := by
  unfold sadd at h
  split at h
  · exact Or.inr h
  · rcases List.mem_append.mp h with h2 | h2
    · exact Or.inr h2
    · exact Or.inl (by simpa using h2)

theorem sadd_nodup {k : String} {vs : List String} (h : vs.Nodup) :
    (sadd k vs).Nodup := by
  unfold sadd
  split
  · exact h
  · rename_i hnm
    simp [List.nodup_append, h, hnm]

namespace StateManager

/-- C1: the spec requires that a transaction failure during `commitBlock`
leave the committed pointer unchanged and the whole state at the pre-commit
snapshot.  The code keeps the pointer unchanged but leaves the transactions
that preceded the failing one applied: committing a block whose second
transaction overdraws the sender leaves the sender debited and the first
recipient credited, while the commit reports an error. -/
theorem commitBlock_midblock_failure_visible :
    (commitBlock stC1 blockC1).1.isSome = true ∧
    (commitBlock stC1 blockC1).2.currentBlock = stC1.currentBlock ∧
    getAccountS stC1.accounts "A"
      = ⟨10, 0, sha256OfEmptyString, sha256OfEmptyString⟩ ∧
    getAccountS (commitBlock stC1 blockC1).2.accounts "A"
      = ⟨4, 1, sha256OfEmptyString, sha256OfEmptyString⟩ ∧
    getAccountS (commitBlock stC1 blockC1).2.accounts "B"
      = ⟨5, 0, sha256OfEmptyString, sha256OfEmptyString⟩ := by
  refine ⟨rfl, rfl, rfl, rfl, rfl⟩

theorem getAccountS_updStore_self (σ : AccStore) (a : String) (acc : Account) :
    getAccountS (updStore σ a acc) a = acc := by
  simp [getAccountS, updStore]

theorem getAccountS_updStore_ne (σ : AccStore) {a x : String} (acc : Account)
    (h : x ≠ a) : getAccountS (updStore σ a acc) x = getAccountS σ x := by
  simp [getAccountS, updStore, h]

theorem updStore_raw_ne (σ : AccStore) {a x : String} (acc : Account)
    (h : x ≠ a) : updStore σ a acc x = σ x := by
  simp [updStore, h]

theorem mutateVisible_raw_ne (σ : AccStore) {a x : String} (acc : Account)
    (h : x ≠ a) : mutateVisible σ a acc x = σ x := by
  unfold mutateVisible
  split
  · simp [updStore, h]
  · rfl

theorem getAccountS_congr_raw {σ τ : AccStore} {x : String} (h : σ x = τ x) :
    getAccountS σ x = getAccountS τ x := by
  unfold getAccountS
  rw [h]

/-- Normal form of `applyTransaction` for a transaction with distinct sender
and recipient: the aliasing branch is dead and the three failure conditions
line up as an if chain. -/
theorem applyTransaction_eq (σ : AccStore) (t : Transaction)
    (hne : t.fromAddr ≠ t.toAddr) :
    applyTransaction σ t =
      (let s := getAccountS σ t.fromAddr
       let r := getAccountS σ t.toAddr
       let sF : Account := { s with balance := s.balance - (t.value + t.fee),
                                    nonce := s.nonce + 1 }
       let rF : Account := { r with balance := r.balance + t.value }
       let σm := mutateVisible (mutateVisible σ t.fromAddr sF) t.toAddr rF
       if s.balance < t.value + t.fee then (some "Insufficient balance", σ)
       else if sF.balance < 0 ∨ sF.nonce < 0 then (some "Invalid account state", σm)
       else if rF.balance < 0 ∨ rF.nonce < 0 then
         (some "Invalid account state", updStore σm t.fromAddr sF)
       else (none, updStore (updStore σm t.fromAddr sF) t.toAddr rF)) := by
  unfold applyTransaction updateAccount
  simp only [hne, false_and, if_false]
  split_ifs <;> rfl

/-- Normal form of `revertTransaction` for a transaction with distinct
sender and recipient. -/
theorem revertTransaction_eq (σ : AccStore) (t : Transaction)
    (hne : t.fromAddr ≠ t.toAddr) :
    revertTransaction σ t =
      (let s := getAccountS σ t.fromAddr
       let r := getAccountS σ t.toAddr
       let sG : Account := { s with balance := s.balance + (t.value + t.fee),
                                    nonce := s.nonce - 1 }
       let rG : Account := { r with balance := r.balance - t.value }
       let σm := mutateVisible (mutateVisible σ t.fromAddr sG) t.toAddr rG
       if sG.balance < 0 ∨ sG.nonce < 0 then (some "Invalid account state", σm)
       else if rG.balance < 0 ∨ rG.nonce < 0 then
         (some "Invalid account state", updStore σm t.fromAddr sG)
       else (none, updStore (updStore σm t.fromAddr sG) t.toAddr rG)) := by
  unfold revertTransaction updateAccount
  simp only [hne, false_and, if_false]
  split_ifs <;> rfl

theorem account_mk_eta (a : Account) (b n : Int) (hb : b = a.balance)
    (hn : n = a.nonce) : Account.mk b n a.codeHash a.storageRoot = a := by
  cases a
  cases hb
  cases hn
  rfl

/-- Immediately reverting a successfully applied transaction with distinct
sender and recipient succeeds and observably restores the store; the applied
store still satisfies the account invariants. -/
theorem apply_then_revert (σ : AccStore) (t : Transaction)
    (hval : ValidStore σ) (hne : t.fromAddr ≠ t.toAddr)
    (hok : (applyTransaction σ t).1 = none) :
    (revertTransaction (applyTransaction σ t).2 t).1 = none ∧
    StoreEq (revertTransaction (applyTransaction σ t).2 t).2 σ ∧
    ValidStore (applyTransaction σ t).2 := by
  obtain ⟨hbF, hnF⟩ := hval t.fromAddr
  obtain ⟨hbT, hnT⟩ := hval t.toAddr
  rw [applyTransaction_eq σ t hne] at hok ⊢
  dsimp only at hok ⊢
  split_ifs at hok with h1 h2 h3
  -- the three failure branches contradict `hok` and are discharged by
  -- `split_ifs`; only the successful application remains
  case _ =>
    set s := getAccountS σ t.fromAddr with hs
    set r := getAccountS σ t.toAddr with hr
    set sF : Account := { s with balance := s.balance - (t.value + t.fee),
                                 nonce := s.nonce + 1 } with hsF
    set rF : Account := { r with balance := r.balance + t.value } with hrF
    set σm := mutateVisible (mutateVisible σ t.fromAddr sF) t.toAddr rF with hσm
    simp only [if_neg h1, if_neg h2, if_neg h3]
    set σ1 : AccStore := updStore (updStore σm t.fromAddr sF) t.toAddr rF with hσ1
    have hgetF : getAccountS σ1 t.fromAddr = sF := by
      rw [hσ1, getAccountS_updStore_ne _ _ hne, getAccountS_updStore_self]
    have hgetT : getAccountS σ1 t.toAddr = rF := by
      rw [hσ1, getAccountS_updStore_self]
    have hgetO : ∀ x, x ≠ t.fromAddr → x ≠ t.toAddr →
        getAccountS σ1 x = getAccountS σ x := by
      intro x hxF hxT
      rw [hσ1, getAccountS_updStore_ne _ _ hxT, getAccountS_updStore_ne _ _ hxF]
      exact getAccountS_congr_raw
        ((mutateVisible_raw_ne _ _ hxT).trans (mutateVisible_raw_ne _ _ hxF))
    have hvalid1 : ValidStore σ1 := by
      intro x
      by_cases hxT : x = t.toAddr
      · subst hxT
        rw [hgetT]
        try simp only [hrF]
        try dsimp
        omega
      · by_cases hxF : x = t.fromAddr
        · subst hxF
          rw [hgetF]
          try simp only [hsF]
          try dsimp
          omega
        · rw [hgetO x hxF hxT]
          exact hval x
    rw [revertTransaction_eq σ1 t hne]
    dsimp only
    rw [hgetF, hgetT]
    split_ifs with g1 g2
    · exfalso
      try simp only [hsF] at g1
      try dsimp at g1
      omega
    · exfalso
      try simp only [hrF] at g2
      try dsimp at g2
      omega
    · refine ⟨rfl, ?_, hvalid1⟩
      intro x
      by_cases hxT : x = t.toAddr
      · subst hxT
        dsimp only
        rw [getAccountS_updStore_self]
        exact account_mk_eta r _ _ (by omega) (by omega)
      · by_cases hxF : x = t.fromAddr
        · subst hxF
          dsimp only
          rw [getAccountS_updStore_ne _ _ hne, getAccountS_updStore_self]
          exact account_mk_eta s _ _ (by omega) (by omega)
        · dsimp only
          rw [getAccountS_updStore_ne _ _ hxT, getAccountS_updStore_ne _ _ hxF]
          exact (getAccountS_congr_raw
            ((mutateVisible_raw_ne _ _ hxT).trans (mutateVisible_raw_ne _ _ hxF))).trans
            (hgetO x hxF hxT)

/-- Observable content of the store produced by the write sequence shared by
`applyTransaction` and `revertTransaction` (mutate both objects, persist
sender, persist recipient). -/
theorem getAccountS_writes (ρ : AccStore) (t : Transaction) (sG rG : Account)
    (_hne : t.fromAddr ≠ t.toAddr) (x : String) :
    getAccountS (updStore (updStore
        (mutateVisible (mutateVisible ρ t.fromAddr sG) t.toAddr rG)
        t.fromAddr sG) t.toAddr rG) x
      = (if x = t.toAddr then rG else if x = t.fromAddr then sG
         else getAccountS ρ x) := by
  by_cases hxT : x = t.toAddr
  · subst hxT
    rw [if_pos rfl, getAccountS_updStore_self]
  · rw [if_neg hxT, getAccountS_updStore_ne _ _ hxT]
    by_cases hxF : x = t.fromAddr
    · subst hxF
      rw [if_pos rfl, getAccountS_updStore_self]
    · rw [if_neg hxF, getAccountS_updStore_ne _ _ hxF]
      exact getAccountS_congr_raw
        ((mutateVisible_raw_ne _ _ hxT).trans (mutateVisible_raw_ne _ _ hxF))

/-- `revertTransaction` only looks at the store through `getAccount`, except
for the in-place mutation visibility, which the persisting writes overwrite
on success: observably equal stores fail alike and succeed to observably
equal stores. -/
theorem revertTransaction_congr (σ τ : AccStore) (t : Transaction)
    (hne : t.fromAddr ≠ t.toAddr) (heq : StoreEq σ τ) :
    (revertTransaction σ t).1 = (revertTransaction τ t).1 ∧
    ((revertTransaction σ t).1 = none →
      StoreEq (revertTransaction σ t).2 (revertTransaction τ t).2) := by
  have e1 : getAccountS σ t.fromAddr = getAccountS τ t.fromAddr := heq _
  have e2 : getAccountS σ t.toAddr = getAccountS τ t.toAddr := heq _
  rw [revertTransaction_eq σ t hne, revertTransaction_eq τ t hne]
  dsimp only
  rw [e1, e2]
  split_ifs with g1 g2
  · exact ⟨rfl, fun hcon => absurd hcon (by simp)⟩
  · exact ⟨rfl, fun hcon => absurd hcon (by simp)⟩
  · refine ⟨rfl, fun _ => ?_⟩
    intro x
    rw [getAccountS_writes σ t _ _ hne x, getAccountS_writes τ t _ _ hne x]
    split_ifs
    · rfl
    · rfl
    · exact heq x

theorem applyTxs_cons_ok (σ : AccStore) (t : Transaction) (ts : List Transaction)
    (h : (applyTransaction σ t).1 = none) :
    applyTxs (t :: ts) σ = applyTxs ts (applyTransaction σ t).2 := by
  rcases hp : applyTransaction σ t with ⟨o, σ1⟩
  rw [hp] at h
  cases o with
  | some e => simp at h
  | none => simp [applyTxs, hp]

theorem revertTxs_append_single (t : Transaction) :
    ∀ (ts : List Transaction) (σ : AccStore),
      revertTxs (ts ++ [t]) σ =
        (match revertTxs ts σ with
         | (some e, σ1) => (some e, σ1)
         | (none, σ1) => revertTransaction σ1 t)
  | [], σ => by
    rcases hr : revertTransaction σ t with ⟨o, σ1⟩
    cases o <;> simp [revertTxs, hr]
  | u :: ts, σ => by
    rcases hr : revertTransaction σ u with ⟨o, σ1⟩
    cases o with
    | some e => simp [revertTxs, hr]
    | none => simp [revertTxs, hr, revertTxs_append_single t ts σ1]

/-- A successfully applied transaction list, reverted in reverse order,
succeeds and observably restores the initial store. -/
theorem applyTxs_revert (ts : List Transaction) (σ : AccStore)
    (hval : ValidStore σ) (hne : ∀ t ∈ ts, t.fromAddr ≠ t.toAddr)
    (hok : (applyTxs ts σ).1 = none) :
    (revertTxs ts.reverse (applyTxs ts σ).2).1 = none ∧
    StoreEq (revertTxs ts.reverse (applyTxs ts σ).2).2 σ := by
  induction ts generalizing σ with
  | nil => exact ⟨rfl, fun a => rfl⟩
  | cons t ts ih =>
    have hne_t : t.fromAddr ≠ t.toAddr := hne t (by simp)
    have hne2 : ∀ u ∈ ts, u.fromAddr ≠ u.toAddr := fun u hu => hne u (by simp [hu])
    have h1 : (applyTransaction σ t).1 = none := by
      by_contra hcon
      rcases hp : applyTransaction σ t with ⟨o, σ1⟩
      rw [hp] at hcon
      cases o with
      | none => exact hcon rfl
      | some e =>
        rw [show applyTxs (t :: ts) σ = (some e, σ1) from by simp [applyTxs, hp]] at hok
        simp at hok
    obtain ⟨hrev1, hreq, hval1⟩ := apply_then_revert σ t hval hne_t h1
    rw [applyTxs_cons_ok σ t ts h1] at hok ⊢
    obtain ⟨ih1, ih2⟩ := ih (applyTransaction σ t).2 hval1 hne2 hok
    rw [List.reverse_cons, revertTxs_append_single]
    rcases hsplit : revertTxs ts.reverse (applyTxs ts (applyTransaction σ t).2).2
      with ⟨o2, σr⟩
    rw [hsplit] at ih1 ih2
    cases o2 with
    | some e => simp at ih1
    | none =>
      dsimp only at ih2 ⊢
      obtain ⟨hcg1, hcg2⟩ := revertTransaction_congr σr (applyTransaction σ t).2
        t hne_t ih2
      have hfst : (revertTransaction σr t).1 = none := by rw [hcg1]; exact hrev1
      exact ⟨hfst, fun x => ((hcg2 hfst) x).trans (hreq x)⟩

/-- The tail of `revertBlock` once the block has been found in the cache:
the revert loop runs on the reversed transaction list over the current
accounts. -/
theorem revertBlock_run (st1 : SMState) (b : Block) (σn : AccStore)
    (hacc : st1.accounts = σn)
    (hbc : st1.blockCache b.hash = some b)
    (hrev1 : (revertTxs b.transactions.reverse σn).1 = none) :
    (revertBlock st1 b.hash).1 = none ∧
    (revertBlock st1 b.hash).2.accounts = (revertTxs b.transactions.reverse σn).2 := by
  have hget : getBlock st1 b.hash = some b := by
    unfold getBlock
    rw [hbc]
  have hp : (st1.blockCache b.hash).isSome = true := by rw [hbc]; rfl
  unfold revertBlock
  rw [hget]
  dsimp only
  rw [if_pos hp]
  dsimp only
  rw [hacc]
  rcases hr : revertTxs b.transactions.reverse σn with ⟨o2, σ2⟩
  rw [hr] at hrev1
  cases o2 with
  | some e => simp at hrev1
  | none => exact ⟨rfl, rfl⟩

/-- C2 counterexample: a block holding a single zero-value self-transfer
from an address with no stored account commits successfully, but the
subsequent `revertBlock` fails — the revert decrements the (now shared)
account object's nonce to −1 in place before `updateAccount` rejects it —
and it leaves the account's nonce at −1 instead of restoring the pre-commit
state (nonce 0). -/
theorem revertBlock_self_transfer_cex :
    (commitBlock stC2cex blockC2cex).1 = none ∧
    (revertBlock (commitBlock stC2cex blockC2cex).2 "hS").1.isSome = true ∧
    getAccountS (revertBlock (commitBlock stC2cex blockC2cex).2 "hS").2.accounts "X"
      = ⟨0, -1, sha256OfEmptyString, sha256OfEmptyString⟩ ∧
    getAccountS stC2cex.accounts "X"
      = ⟨0, 0, sha256OfEmptyString, sha256OfEmptyString⟩ := by
  refine ⟨rfl, rfl, rfl, rfl⟩

/-- C2 (amended): from a state whose accounts satisfy the data-model
invariant (balance ≥ 0, nonce ≥ 0 — spec §3), for every block whose
transactions all have distinct sender and recipient, a successful
`commitBlock` followed by `revertBlock` of the block's hash succeeds and
restores every account to its exact pre-commit balance and nonce (the block
is reverted transaction by transaction, in strict reverse order, by the
exact inverse of `applyTransaction`).  A zero-value self-transfer from a
previously absent account refutes the unrestricted claim. -/
theorem commitBlock_revertBlock_restores (st0 : SMState) (b : Block)
    (hval : ValidStore st0.accounts)
    (hne : ∀ t ∈ b.transactions, t.fromAddr ≠ t.toAddr)
    (hok : (commitBlock st0 b).1 = none) :
    (revertBlock (commitBlock st0 b).2 b.hash).1 = none ∧
    ∀ a, getAccountS (revertBlock (commitBlock st0 b).2 b.hash).2.accounts a
          = getAccountS st0.accounts a := by
  rcases happ : applyTxs b.transactions st0.accounts with ⟨o, σn⟩
  have ho : o = none := by
    unfold commitBlock at hok
    rw [happ] at hok
    cases o with
    | none => rfl
    | some e => simp at hok
  subst ho
  obtain ⟨hr1, hr2⟩ := applyTxs_revert b.transactions st0.accounts hval hne
    (by rw [happ])
  rw [happ] at hr1 hr2
  dsimp only at hr1 hr2
  have hcommit : commitBlock st0 b =
      (none,
        { st0 with
            accounts := σn,
            currentBlock := some b,
            blockCache := updBlocks st0.blockCache b.hash b,
            dbBlocks := updBlocks st0.dbBlocks b.hash b }) := by
    simp [commitBlock, happ]
  rw [hcommit]
  obtain ⟨hb1, hb2⟩ := revertBlock_run
    ({ st0 with
        accounts := σn,
        currentBlock := some b,
        blockCache := updBlocks st0.blockCache b.hash b,
        dbBlocks := updBlocks st0.dbBlocks b.hash b }) b σn rfl
    (by dsimp only; simp [updBlocks]) hr1
  refine ⟨hb1, fun a => ?_⟩
  rw [hb2]
  exact hr2 a

/-- C2 witness: a two-transaction block over accounts `A` and `B` commits
and reverts back to the initial balances and nonces. -/
theorem commitBlock_revertBlock_restores_witness :
    (revertBlock (commitBlock stC2 blockC2).2 "hB").1 = none ∧
    getAccountS (revertBlock (commitBlock stC2 blockC2).2 "hB").2.accounts "A"
      = getAccountS stC2.accounts "A" ∧
    getAccountS (revertBlock (commitBlock stC2 blockC2).2 "hB").2.accounts "B"
      = getAccountS stC2.accounts "B" ∧
    getAccountS (revertBlock (commitBlock stC2 blockC2).2 "hB").2.accounts "C"
      = getAccountS stC2.accounts "C" := by
  have h := commitBlock_revertBlock_restores stC2 blockC2
    (by
      intro a
      by_cases h1 : a = "A"
      · simp [getAccountS, stC2, storeC2, h1]
      · by_cases h2 : a = "B"
        · simp [getAccountS, stC2, storeC2, h1, h2]
        · simp [getAccountS, stC2, storeC2, createEmptyAccount, h1, h2])
    (by decide) rfl
  exact ⟨h.1, h.2 "A", h.2 "B", h.2 "C"⟩

/-- C9: `revertBlock` loads the block through the cache and reverses its
transaction array in place, so for a cache-resident block the reversal is
permanent: every later read of that hash from the State Manager observes the
transactions reversed, with every other block field unchanged. -/
theorem revertBlock_reverses_cached_transactions (st : SMState) (h : String)
    (b : Block) (hcache : st.blockCache h = some b)
    (_hlen : 2 ≤ b.transactions.length) :
    getBlock (revertBlock st h).2 h
      = some { b with transactions := b.transactions.reverse } := by
  have hget : getBlock st h = some b := by
    unfold getBlock
    rw [hcache]
  have hp : (st.blockCache h).isSome = true := by rw [hcache]; rfl
  have hbc : (revertBlock st h).2.blockCache
      = updBlocks st.blockCache h { b with transactions := b.transactions.reverse } := by
    unfold revertBlock
    rw [hget]
    dsimp only
    rw [if_pos hp]
    split
    · rfl
    · rfl
  unfold getBlock
  rw [hbc]
  simp [updBlocks]

/-- C9 witness: after reverting the cached three-transaction block `blockC9`
the cache serves it with the transactions reversed. -/
theorem revertBlock_reverses_cached_transactions_witness :
    getBlock (revertBlock stC9 "hR").2 "hR"
      = some { blockC9 with transactions := blockC9.transactions.reverse } :=
  revertBlock_reverses_cached_transactions stC9 "hR" blockC9 (by decide) (by decide)

end StateManager

namespace TransactionPoolB

/-- C3 counterexample: sender balance 100, pending entry (amount 60, fee 5);
a new transaction (amount 40, fee 5) from the same sender is admitted by the
code, although amount + fee + pending amount + pending fee = 110 > 100,
because `validateTransactionBalance` ignores both fees (60 + 40 ≤ 100). -/
theorem poolB_fee_ignored_scenario_accepted :
    addTransaction poolB txB2 (fun _ => true) hashB balance100
      = .ok ⟨[("h1", txB1), ("h2", txB2)]⟩ ∧
    balance100 "A" < txB1.amount + txB1.fee + txB2.amount + txB2.fee := by
  refine ⟨rfl, by decide⟩

/-- C3 (amended): pool admission rejects a transaction whenever the sender's
balance is below the transaction's amount plus the sum of the sender's other
pending amounts — fees, both of the new transaction and of the pending
entries, are not counted, so the spec's §8 scenario transaction is admitted. -/
theorem poolB_rejects_on_pending_amounts (st : PoolState) (tx : Transaction)
    (isValid : Transaction → Bool) (hashOf : Transaction → String)
    (balanceOf : String → Int)
    (hbal : balanceOf tx.fromAddr < getPendingAmount st tx.fromAddr + tx.amount) :
    ∃ e, addTransaction st tx isValid hashOf balanceOf = .error e := by
  by_cases h1 : isValid tx = true
  · by_cases h2 : maxPoolSize ≤ st.transactions.length
    · exact ⟨"Transaction pool is full", by simp [addTransaction, h1, h2]⟩
    · by_cases h3 : (mlookup st.transactions (hashOf tx)).isSome = true
      · exact ⟨"Transaction already exists in pool",
          by simp [addTransaction, h1, h2, h3]⟩
      · have h4 : validateTransactionBalance st tx balanceOf = false := by
          simp only [validateTransactionBalance, decide_eq_false_iff_not]
          omega
        exact ⟨"Insufficient balance for transaction",
          by simp [addTransaction, h1, h2, h3, h4]⟩
  · exact ⟨"Invalid transaction signature", by simp [addTransaction, h1]⟩

/-- C3 witness for the amended theorem: with pending amount 60, a new
transaction of amount 50 from a sender with balance 100 is rejected. -/
theorem poolB_rejects_on_pending_amounts_witness :
    ∃ e, addTransaction poolB ⟨"A", 50, 5, 0⟩ (fun _ => true) hashB balance100
      = .error e :=
  poolB_rejects_on_pending_amounts poolB ⟨"A", 50, 5, 0⟩ (fun _ => true) hashB
    balance100 (by decide)

end TransactionPoolB

namespace TransactionPoolA

/-- C5 counterexample: a pool at its configured maximum (1 entry, maxSize 1)
whose entry is not older than the max age admits a further valid transaction
anyway — the add returns true and the pool then exceeds `maxPoolSize`. -/
theorem poolA_add_exceeds_max :
    (addTransaction poolFull txA2 0 verifyAll balance1000 size10).1 = true ∧
    (addTransaction poolFull txA2 0 verifyAll balance1000 size10).2.transactions.length = 2 ∧
    poolFull.maxSize = 1 := by
  refine ⟨rfl, rfl, rfl⟩

/-- C5 (amended): a rejected admission (duplicate hash or failed validation)
leaves the pool untouched; but when the pool is at or above `maxSize`, a
valid new transaction triggers the eviction sweep of entries older than the
max age and is then inserted regardless of whether the sweep freed space, so
the pool can exceed `maxSize`. -/
theorem poolA_add_behavior :
    (∀ st tx now verifyTx balanceOf sizeOf,
       (addTransaction st tx now verifyTx balanceOf sizeOf).1 = false →
       (addTransaction st tx now verifyTx balanceOf sizeOf).2 = st) ∧
    (∀ st tx now verifyTx balanceOf sizeOf,
       klookup st.transactions (getTransactionHash tx) = none →
       poolValidate tx verifyTx balanceOf sizeOf = none →
       st.maxSize ≤ st.transactions.length →
       addTransaction st tx now verifyTx balanceOf sizeOf
         = (true, ⟨kset (removeOldestTransactions st now).transactions
                     (getTransactionHash tx) ⟨tx, now⟩, st.maxSize⟩)) := by
  constructor
  · intro st tx now verifyTx balanceOf sizeOf hfalse
    by_cases hd : (klookup st.transactions (getTransactionHash tx)).isSome = true
    · simp [addTransaction, hd]
    · cases hv : poolValidate tx verifyTx balanceOf sizeOf with
      | some e => simp [addTransaction, hd, hv]
      | none => simp [addTransaction, hd, hv] at hfalse
  · intro st tx now verifyTx balanceOf sizeOf hdup hvalid hfull
    simp only [addTransaction, hdup, hvalid, Option.isSome_none,
      Bool.false_eq_true, if_false, if_pos hfull]
    rfl

/-- C5 witness for the amended theorem: the full fresh pool admits `txA2`
after a sweep that evicts nothing. -/
theorem poolA_add_behavior_witness :
    addTransaction poolFull txA2 0 verifyAll balance1000 size10
      = (true, ⟨kset (removeOldestTransactions poolFull 0).transactions
                  (getTransactionHash txA2) ⟨txA2, 0⟩, poolFull.maxSize⟩) :=
  poolA_add_behavior.2 poolFull txA2 0 verifyAll balance1000 size10
    (by decide) (by decide) (by decide)

/-- C10: pool identity is the hash of exactly
`(fromAddress, toAddress, amount, timestamp)`: once a transaction is in the
pool, any transaction agreeing on those four fields — even with different
id, fee and signature — is rejected by `addTransaction` with `false` and the
pool is left unchanged. -/
theorem poolA_identity_is_four_fields (st : PoolState) (tx1 tx2 : Transaction)
    (now : Int) (verifyTx : Transaction → Bool) (balanceOf : String → Int)
    (sizeOf : Transaction → Nat) (e : PoolEntry)
    (_hne : tx1 ≠ tx2)
    (hfrom : tx1.fromAddress = tx2.fromAddress)
    (hto : tx1.toAddress = tx2.toAddress)
    (hamt : tx1.amount = tx2.amount)
    (hts : tx1.timestamp = tx2.timestamp)
    (hin : klookup st.transactions (getTransactionHash tx1) = some e) :
    addTransaction st tx2 now verifyTx balanceOf sizeOf = (false, st) := by
  have hkey : getTransactionHash tx2 = getTransactionHash tx1 := by
    simp [getTransactionHash, hfrom, hto, hamt, hts]
  simp [addTransaction, hkey, hin]

/-- C10 witness: `txA1dup` (different id, fee, signature) is rejected once
`txA1` is in the pool. -/
theorem poolA_identity_is_four_fields_witness :
    addTransaction poolFull txA1dup 0 verifyAll balance1000 size10
      = (false, poolFull) :=
  poolA_identity_is_four_fields poolFull txA1 txA1dup 0 verifyAll balance1000
    size10 ⟨txA1, 0⟩ (by decide) rfl rfl rfl rfl (by decide)

end TransactionPoolA

namespace CryptographicHash

/-- C7 counterexample: the `merkleHash` variant at lines 344–368 hashes an
unpaired trailing element against itself instead of carrying it forward:
on the level `["x", "y", "z"]` it produces `h(z + z)` as the trailing entry,
not `z`, and the two repository variants disagree on `["a", "b", "c"]`. -/
theorem merkle_odd_rehash_cex :
    pairUpA hashTag ["x", "y", "z"]
      = [hashTag ("x" ++ "y"), hashTag ("z" ++ "z")] ∧
    hashTag ("z" ++ "z") ≠ "z" ∧
    merkleHashA hashTag ["a", "b", "c"] ≠ merkleHashB hashTag ["a", "b", "c"] := by
  refine ⟨rfl, by decide, by decide⟩

theorem pairUpB_append_single (h : String → String) :
    ∀ (l : List String), l.length % 2 = 0 → ∀ x,
      pairUpB h (l ++ [x]) = pairUpB h l ++ [x]
  | [], _, _ => rfl
  | [a], hlen, x => by simp only [List.length_singleton] at hlen; omega
  | a :: b :: rest, hlen, x => by
    have hr : rest.length % 2 = 0 := by
      simp only [List.length_cons] at hlen
      omega
    simp [pairUpB, pairUpB_append_single h rest hr x]

theorem pairUpA_append_single (h : String → String) :
    ∀ (l : List String), l.length % 2 = 0 → ∀ x,
      pairUpA h (l ++ [x]) = pairUpA h l ++ [h (x ++ x)]
  | [], _, _ => rfl
  | [a], hlen, x => by simp only [List.length_singleton] at hlen; omega
  | a :: b :: rest, hlen, x => by
    have hr : rest.length % 2 = 0 := by
      simp only [List.length_cons] at hlen
      omega
    simp [pairUpA, pairUpA_append_single h rest hr x]

/-- C7 (amended): the two `merkleHash` variants implement different odd-node
policies.  At every level with an odd number of hashes, the variant at lines
472–499 carries the unpaired trailing hash forward unchanged, while the
variant at lines 344–368 replaces it with the hash of its self-concatenation. -/
theorem merkle_odd_policy_split :
    (∀ (h : String → String) (l : List String) (x : String), l.length % 2 = 0 →
       pairUpB h (l ++ [x]) = pairUpB h l ++ [x]) ∧
    (∀ (h : String → String) (l : List String) (x : String), l.length % 2 = 0 →
       pairUpA h (l ++ [x]) = pairUpA h l ++ [h (x ++ x)]) :=
  ⟨fun h l x hlen => pairUpB_append_single h l hlen x,
   fun h l x hlen => pairUpA_append_single h l hlen x⟩

/-- C7 witness: on the odd level `["p", "q", "r"]` the second variant keeps
`"r"` and the first turns it into `hashTag ("r" ++ "r")`. -/
theorem merkle_odd_policy_split_witness :
    pairUpB hashTag (["p", "q"] ++ ["r"]) = pairUpB hashTag ["p", "q"] ++ ["r"] ∧
    pairUpA hashTag (["p", "q"] ++ ["r"])
      = pairUpA hashTag ["p", "q"] ++ [hashTag ("r" ++ "r")] :=
  ⟨merkle_odd_policy_split.1 hashTag ["p", "q"] "r" (by decide),
   merkle_odd_policy_split.2 hashTag ["p", "q"] "r" (by decide)⟩

end CryptographicHash

namespace BlockValidator

/-- C6 counterexample: a block whose stored hash differs from the recomputed
hash but whose timestamp is also invalid is reported as
`'Invalid block timestamp'`, not `'Invalid block hash'` — the checks before
the hash check mask it, contradicting "regardless of other field
correctness". -/
theorem blockValidator_hash_error_masked_cex :
    validateBlock cfgEx hashConst sizeOf100 0 blockBadTs none
      = .err .invalidTimestamp ∧
    blockBadTs.hash ≠ hashConst (blockHashData blockBadTs) ∧
    VError.invalidTimestamp ≠ VError.invalidBlockHash := by
  refine ⟨rfl, by decide, by decide⟩

/-- C6 (amended): whenever the structure, size and timestamp checks pass, a
block whose stored hash differs from the recomputed hash of its fields is
rejected with `'Invalid block hash'`, regardless of the previous-hash
linkage and of the transactions. -/
theorem blockValidator_hash_mismatch_reported (cfg : BVConfig)
    (hashFn : Int × String × Int × List Tx × Int → String) (sizeOf : Block → Nat)
    (now : Int) (b : Block) (prev : Option Block)
    (hsize : validateBlockSize cfg sizeOf b = true)
    (hts : validateTimestamp now b prev = true)
    (hhash : b.hash ≠ hashFn (blockHashData b)) :
    validateBlock cfg hashFn sizeOf now b prev = .err .invalidBlockHash := by
  unfold validateBlock
  rw [hsize, hts]
  have hbh : validateBlockHash cfg hashFn b = false := by
    simp [validateBlockHash, hhash]
  rw [hbh]
  simp [validateBlockStructure]

/-- C6 witness: a block with a wrong hash and otherwise passing early checks
is rejected with the hash error. -/
theorem blockValidator_hash_mismatch_reported_witness :
    validateBlock cfgEx hashConst sizeOf100 0 blockBadHash none
      = .err .invalidBlockHash :=
  blockValidator_hash_mismatch_reported cfgEx hashConst sizeOf100 0 blockBadHash
    none (by decide) (by decide) (by decide)

end BlockValidator

namespace TransactionValidator

/-- C8 counterexample: for a transaction that fails both the amount check
(amount 0) and the signature check, `validateTransaction` reports the
signature failure — the signature check runs before the amount/balance
check, contrary to the spec's 5-before-6 order. -/
theorem txValidator_signature_before_amount_cex :
    validateTransaction sizeTx10 0 hashTx verifyNone txBadBoth none
      = .error .invalidSignature ∧
    validateAmount txBadBoth = some .amountNotPositive ∧
    TVError.invalidSignature ≠ TVError.amountNotPositive := by
  refine ⟨rfl, rfl, by decide⟩

/-- C8 (amended): the checks run in the order basics (spec checks 1–4), then
signature (spec check 6), then amount/balance (spec check 5), then in-block
(spec check 7), short-circuiting on the first failure; so when both the
amount/balance check and the signature check would fail, the reported
failure is the signature failure. -/
theorem txValidator_signature_checked_first (sizeOf : Transaction → Nat)
    (now : Int) (hashFn : String × String × Int × Int × Int × Int → String)
    (ecVerify : String → String → String → Bool) (tx : Transaction)
    (blk : Option TVBlock) (e : TVError)
    (hbasics : validateBasics sizeOf now tx = none)
    (hsig : ecVerify tx.fromAddr (hashFn (txHashData tx)) tx.signature = false)
    (_hamt : validateAmount tx = some e) :
    validateTransaction sizeOf now hashFn ecVerify tx blk
      = .error .invalidSignature := by
  unfold validateTransaction
  rw [hbasics]
  have hs : validateSignature hashFn ecVerify tx = some .invalidSignature := by
    simp [validateSignature, hsig]
  rw [hs]

/-- C8 witness: `txBadBoth` with a failing verifier reports the signature
error. -/
theorem txValidator_signature_checked_first_witness :
    validateTransaction sizeTx10 0 hashTx verifyNone txBadBoth none
      = .error .invalidSignature :=
  txValidator_signature_checked_first sizeTx10 0 hashTx verifyNone txBadBoth
    none .amountNotPositive (by decide) rfl (by decide)

end TransactionValidator

namespace ConsensusEngine

theorem finGo_none_preserved (L : List (String × List String)) (st : CEState)
    (h : String) (hnone : mlookup st.pendingBlocks h = none) :
    mlookup (finGo L st).2.pendingBlocks h = none := by
  induction L generalizing st with
  | nil => exact hnone
  | cons e rest ih =>
    rcases e with ⟨h1, vs1⟩
    by_cases hq : st.requiredValidations ≤ vs1.length
    · cases hp : mlookup st.pendingBlocks h1 with
      | some b1 =>
        simp only [finGo, hq, if_true, hp]
        refine ih _ ?_
        dsimp only
        rw [mlookup_mdelete]
        by_cases hh : h = h1 <;> simp [hh, hnone]
      | none =>
        simp only [finGo, hq, if_true, hp]
        exact ih st hnone
    · simp only [finGo, hq, if_false]
      exact ih st hnone

theorem finGo_quorum_finalizes (L : List (String × List String)) (st : CEState)
    (h : String) (vs : List String) (b : Block)
    (hnd : (mkeys L).Nodup) (hmem : (h, vs) ∈ L)
    (hq : st.requiredValidations ≤ vs.length)
    (hp : mlookup st.pendingBlocks h = some b) :
    b ∈ (finGo L st).1 ∧ mlookup (finGo L st).2.pendingBlocks h = none := by
  induction L generalizing st with
  | nil => simp at hmem
  | cons e rest ih =>
    rcases e with ⟨h1, vs1⟩
    have hnd2 : (h1 :: mkeys rest).Nodup := hnd
    rcases List.mem_cons.mp hmem with he | hrest
    · have hh : h = h1 := congrArg Prod.fst he
      have hvv : vs = vs1 := congrArg Prod.snd he
      subst hh
      subst hvv
      simp only [finGo, hq, if_true, hp]
      refine ⟨List.mem_cons_self _ _, ?_⟩
      refine finGo_none_preserved rest _ h ?_
      dsimp only
      rw [mlookup_mdelete]
      simp
    · have hhne : h1 ≠ h := by
        intro hcon
        have hmk : h ∈ mkeys rest := by
          simp only [mkeys, List.mem_map]
          exact ⟨(h, vs), hrest, rfl⟩
        rw [hcon] at hnd2
        exact (List.nodup_cons.mp hnd2).1 hmk
      by_cases hq1 : st.requiredValidations ≤ vs1.length
      · cases hp1 : mlookup st.pendingBlocks h1 with
        | some b1 =>
          simp only [finGo, hq1, if_true, hp1]
          have hp2 : mlookup (mdelete st.pendingBlocks h1) h = some b := by
            rw [mlookup_mdelete, if_neg (fun hc => hhne hc.symm)]
            exact hp
          obtain ⟨m1, m2⟩ := ih
            { st with
                pendingBlocks := mdelete st.pendingBlocks h1,
                validations := mdelete st.validations h1 }
            (List.nodup_cons.mp hnd2).2 hrest hq hp2
          exact ⟨List.mem_cons_of_mem _ m1, m2⟩
        | none =>
          simp only [finGo, hq1, if_true, hp1]
          exact ih st (List.nodup_cons.mp hnd2).2 hrest hq hp
      · simp only [finGo, hq1, if_false]
        exact ih st (List.nodup_cons.mp hnd2).2 hrest hq hp

theorem finGo_deleted_has_quorum (L : List (String × List String)) (st : CEState)
    (h : String) (b : Block)
    (hsome : mlookup st.pendingBlocks h = some b)
    (hdel : mlookup (finGo L st).2.pendingBlocks h = none) :
    ∃ vs, (h, vs) ∈ L ∧ st.requiredValidations ≤ vs.length := by
  induction L generalizing st with
  | nil =>
    rw [show finGo [] st = ([], st) from rfl] at hdel
    rw [hsome] at hdel
    simp at hdel
  | cons e rest ih =>
    rcases e with ⟨h1, vs1⟩
    by_cases hq1 : st.requiredValidations ≤ vs1.length
    · cases hp1 : mlookup st.pendingBlocks h1 with
      | some b1 =>
        by_cases hh : h = h1
        · exact ⟨vs1, by rw [hh]; exact List.mem_cons_self _ _, hq1⟩
        · simp only [finGo, hq1, if_true, hp1] at hdel
          have hsome2 : mlookup (mdelete st.pendingBlocks h1) h = some b := by
            rw [mlookup_mdelete, if_neg hh]
            exact hsome
          obtain ⟨vs, hm, hql⟩ := ih _ hsome2 hdel
          exact ⟨vs, List.mem_cons_of_mem _ hm, hql⟩
      | none =>
        simp only [finGo, hq1, if_true, hp1] at hdel
        obtain ⟨vs, hm, hql⟩ := ih st hsome hdel
        exact ⟨vs, List.mem_cons_of_mem _ hm, hql⟩
    · simp only [finGo, hq1, if_false] at hdel
      obtain ⟨vs, hm, hql⟩ := ih st hsome hdel
      exact ⟨vs, List.mem_cons_of_mem _ hm, hql⟩

theorem inv_mdelete (st : CEState) (hInv : Inv st) (h1 : String) :
    Inv { st with
            pendingBlocks := mdelete st.pendingBlocks h1,
            validations := mdelete st.validations h1 } := by
  obtain ⟨p1, p2, p3, p4⟩ := hInv
  refine ⟨mkeys_mdelete_nodup _ p1, mkeys_mdelete_nodup _ p2, ?_, ?_⟩
  · intro h
    dsimp only
    rw [mlookup_mdelete, mlookup_mdelete]
    by_cases hh : h = h1
    · simp [hh]
    · simp only [if_neg hh]
      exact p3 h
  · intro h ks hks
    dsimp only at hks ⊢
    rw [mlookup_mdelete] at hks
    by_cases hh : h = h1
    · rw [if_pos hh] at hks
      simp at hks
    · rw [if_neg hh] at hks
      exact p4 h ks hks

theorem finGo_inv (L : List (String × List String)) (st : CEState)
    (hInv : Inv st) : Inv (finGo L st).2 := by
  induction L generalizing st with
  | nil => exact hInv
  | cons e rest ih =>
    rcases e with ⟨h1, vs1⟩
    by_cases hq : st.requiredValidations ≤ vs1.length
    · cases hp : mlookup st.pendingBlocks h1 with
      | some b1 =>
        simp only [finGo, hq, if_true, hp]
        exact ih _ (inv_mdelete st hInv h1)
      | none =>
        simp only [finGo, hq, if_true, hp]
        exact ih st hInv
    · simp only [finGo, hq, if_false]
      exact ih st hInv

theorem reachable_inv (st : CEState) (hreach : Reachable st) : Inv st := by
  induction hreach with
  | init validators q hq =>
    refine ⟨List.nodup_nil, List.nodup_nil, ?_, ?_⟩
    · intro h
      simp [mlookup]
    · intro h ks hks
      simp [mlookup] at hks
  | propose st b hashFn validate hr ih =>
    by_cases h1 : (mlookup st.pendingBlocks (hashFn b)).isSome = true
    · simpa [proposeBlock, h1] using ih
    · by_cases h2 : validate b = true
      · have hpn : mlookup st.pendingBlocks (hashFn b) = none :=
          Option.not_isSome_iff_eq_none.mp h1
        obtain ⟨p1, p2, p3, p4⟩ := ih
        have hvn : mlookup st.validations (hashFn b) = none := by
          cases hcase : mlookup st.validations (hashFn b) with
          | none => rfl
          | some vs =>
            exfalso
            exact h1 ((p3 (hashFn b)).mpr (by rw [hcase]; rfl))
        simp only [proposeBlock, h1, Bool.false_eq_true, if_false, h2,
          not_true, if_true]
        refine ⟨?_, ?_, ?_, ?_⟩
        · dsimp only
          rw [mkeys_mset, if_neg h1]
          simp [List.nodup_append, p1, mlookup_none_not_mem_keys hpn]
        · dsimp only
          rw [mkeys_mset, if_neg (by rw [hvn]; simp)]
          simp [List.nodup_append, p2, mlookup_none_not_mem_keys hvn]
        · intro h
          dsimp only
          rw [mlookup_mset, mlookup_mset]
          by_cases hh : h = hashFn b
          · simp [hh]
          · simp only [if_neg hh]
            exact p3 h
        · intro h ks hks
          dsimp only at hks ⊢
          rw [mlookup_mset] at hks
          by_cases hh : h = hashFn b
          · rw [if_pos hh] at hks
            obtain rfl : ([] : List String) = ks := Option.some.inj hks
            simp
          · rw [if_neg hh] at hks
            exact p4 h ks hks
      · simpa [proposeBlock, h1, h2] using ih
  | attest st h k s verify hr ih =>
    by_cases hk : k ∈ st.validators
    · cases hpb : mlookup st.pendingBlocks h with
      | none => simpa [ceValidateBlock, hk, hpb] using ih
      | some b =>
        by_cases hv : verify h s k = true
        · cases hvs : mlookup st.validations h with
          | none => simpa [ceValidateBlock, hk, hpb, hv, hvs] using ih
          | some vs =>
            simp only [ceValidateBlock, hk, if_true, hpb, hv, hvs]
            obtain ⟨p1, p2, p3, p4⟩ := ih
            have hvsome : (mlookup st.validations h).isSome = true := by
              rw [hvs]
              rfl
            refine ⟨p1, ?_, ?_, ?_⟩
            · dsimp only
              rw [mkeys_mset, if_pos hvsome]
              exact p2
            · intro h2
              dsimp only
              rw [mlookup_mset]
              by_cases hh : h2 = h
              · subst hh
                rw [hpb]
                simp
              · simp only [if_neg hh]
                exact p3 h2
            · intro h2 ks hks
              dsimp only at hks ⊢
              rw [mlookup_mset] at hks
              by_cases hh : h2 = h
              · rw [if_pos hh] at hks
                obtain rfl : sadd k vs = ks := Option.some.inj hks
                obtain ⟨hvnd, hvsub⟩ := p4 h vs hvs
                refine ⟨sadd_nodup hvnd, ?_⟩
                intro k2 hk2
                rcases sadd_mem hk2 with hk2 | hk2
                · rw [hk2]
                  exact hk
                · exact hvsub k2 hk2
              · rw [if_neg hh] at hks
                exact p4 h2 ks hks
        · simpa [ceValidateBlock, hk, hpb, hv] using ih
    · simpa [ceValidateBlock, hk] using ih
  | finalize st hr ih => exact finGo_inv st.validations st ih
  | clear st hr ih =>
    refine ⟨List.nodup_nil, List.nodup_nil, ?_, ?_⟩
    · intro h
      simp [clearPendingBlocks, mlookup]
    · intro h ks hks
      simp [clearPendingBlocks, mlookup] at hks

/-- C4: in every reachable Consensus Engine state, a pending block is
reported by `getFinalizedBlocks` and removed from the pending set exactly
when its attestation set has reached the quorum threshold
`requiredValidations`; every key in any attestation set belongs to the
configured validator set, and an attestation from a key outside the
validator set is rejected without changing the state. -/
theorem consensus_finalized_iff_quorum (st : CEState) (hreach : Reachable st)
    (h : String) (b : Block)
    (hpend : mlookup st.pendingBlocks h = some b) :
    ((b ∈ (getFinalizedBlocks st).1 ∧
        mlookup (getFinalizedBlocks st).2.pendingBlocks h = none)
      ↔ st.requiredValidations ≤ ((mlookup st.validations h).getD []).length) ∧
    (∀ h2 ks, mlookup st.validations h2 = some ks → ∀ k ∈ ks, k ∈ st.validators) ∧
    (∀ h2 k s verify, k ∉ st.validators →
        ceValidateBlock st h2 k s verify = (false, st)) := by
  obtain ⟨hnd_p, hnd_v, hiff, hsub⟩ := reachable_inv st hreach
  refine ⟨?_, fun h2 ks hks => (hsub h2 ks hks).2, ?_⟩
  · constructor
    · rintro ⟨hmem, hnone⟩
      obtain ⟨vs, hvs_mem, hq⟩ :=
        finGo_deleted_has_quorum st.validations st h b hpend hnone
      rw [mem_mlookup hnd_v hvs_mem]
      simpa using hq
    · intro hq
      have hvsome : (mlookup st.validations h).isSome = true :=
        (hiff h).mp (by rw [hpend]; rfl)
      cases hvs : mlookup st.validations h with
      | none =>
        rw [hvs] at hvsome
        simp at hvsome
      | some vs =>
        rw [hvs] at hq
        exact finGo_quorum_finalizes st.validations st h vs b hnd_v
          (mlookup_mem hvs) (by simpa using hq) hpend
  · intro h2 k s verify hk
    simp [ceValidateBlock, hk]

/-- C4 witness: validator set `[A, B]`, quorum 1; after proposing a block
under hash `h1` and collecting `A`'s attestation, the block is reported
finalized and removed, attestation sets stay inside the validator set, and a
non-validator attestation is rejected. -/
theorem consensus_finalized_iff_quorum_witness :
    mlookup ceStateEx.pendingBlocks "h1" = some ceBlockEx ∧
    (((ceBlockEx ∈ (getFinalizedBlocks ceStateEx).1 ∧
        mlookup (getFinalizedBlocks ceStateEx).2.pendingBlocks "h1" = none)
      ↔ ceStateEx.requiredValidations
          ≤ ((mlookup ceStateEx.validations "h1").getD []).length) ∧
    (∀ h2 ks, mlookup ceStateEx.validations h2 = some ks →
        ∀ k ∈ ks, k ∈ ceStateEx.validators) ∧
    (∀ h2 k s verify, k ∉ ceStateEx.validators →
        ceValidateBlock ceStateEx h2 k s verify = (false, ceStateEx))) :=
  ⟨by decide,
   consensus_finalized_iff_quorum ceStateEx
     (Reachable.attest _ "h1" "A" "sig" (fun _ _ _ => true)
       (Reachable.propose _ ceBlockEx ceHashEx (fun _ => true)
         (Reachable.init ["A", "B"] 1 (by decide))))
     "h1" ceBlockEx (by decide)⟩

end ConsensusEngine

end KryptChain
